import Mathlib

/-!
# Verification of the retail cleaning pipeline (`retail_pipeline.py`)

Shallow embedding of the pandas pipeline in `src/retail_pipeline.py`.

Modelling choices:
* A dataframe is a `Table`: a header (list of column names) and a list of
  rows, each row a list of `Value`s aligned with the header.
* Cell values are `Value`: a missing marker (pandas `NaN`/`NaT`), strings,
  exact rationals (modelling the numeric columns), calendar dates, and
  booleans (the outlier flags).  Floating point is modelled by exact
  rational arithmetic.
* Fallible steps (pandas operations that can raise, such as
  `astype("float64")` on an unparseable string) return `Option`.
* String operations (`strip`, `title`, numeric/date parsing) are
  implemented over `List Char` so that all definitions evaluate by kernel
  reduction.  The date/number parsers model `pd.to_datetime` /
  `pd.to_numeric` on the formats the pipeline consumes (ISO dates,
  decimal numbers); any string outside the grammar fails to parse,
  mirroring `errors="coerce"` producing `NaN`.
-/

/-- A cell of the dataframe: pandas `NaN`/`NaT`/`None` is `missing`;
`num` models the float64 numeric columns by exact rationals;
`date` is a parsed `invoice_date` (year, month, day);
`bool` appears in the `is_outlier_*` flag columns. -/
inductive Value where
  | missing
  | str (s : String)
  | num (q : ℚ)
  | date (y m d : ℕ)
  | bool (b : Bool)
deriving DecidableEq, Repr

/-- `True` exactly on the pandas missing marker. -/
def Value.isMissing : Value → Bool
  | .missing => true
  | _ => false

/- ### Character-level string utilities (Python `str.strip`, `str.title`) -/

/-- Python `str.strip()` on a character list: drop leading and trailing
whitespace. -/
def stripChars (cs : List Char) : List Char :=
  ((cs.dropWhile Char.isWhitespace).reverse.dropWhile Char.isWhitespace).reverse

/-- Python `str.strip()`. -/
def pyStrip (s : String) : String := String.mk (stripChars s.data)

/-- One step of Python `str.title()`: the boolean records whether the
previous character was alphabetic. -/
def titleAux : Bool → List Char → List Char
  | _, [] => []
  | prevAlpha, c :: cs =>
    (if c.isAlpha then (if prevAlpha then c.toLower else c.toUpper) else c)
      :: titleAux c.isAlpha cs

/-- Python `str.title()`: uppercase each letter that follows a non-letter,
lowercase every other letter. -/
def pyTitle (s : String) : String := String.mk (titleAux false s.data)

/- ### Number and date parsing (`pd.to_numeric` / `pd.to_datetime`) -/

/-- Parse a nonempty all-digit character list as a natural number. -/
def parseNatCore (cs : List Char) : Option ℕ :=
  if cs.isEmpty then none
  else if cs.all Char.isDigit then
    some (cs.foldl (fun n c => n * 10 + (c.toNat - 48)) 0)
  else none

/-- Split a character list on a separator character. -/
def splitOnChar (sep : Char) (cs : List Char) : List (List Char) :=
  cs.foldr
    (fun c acc =>
      match acc with
      | [] => if c = sep then [[], []] else [[c]]
      | cur :: rest => if c = sep then [] :: cur :: rest else (c :: cur) :: rest)
    [[]]

/-- Parse an unsigned decimal number (`"12"`, `"3.5"`). -/
def parsePosRat (cs : List Char) : Option ℚ :=
  match splitOnChar '.' cs with
  | [a] => (parseNatCore a).map fun x => (x : ℚ)
  | [a, b] =>
    match parseNatCore a, parseNatCore b with
    | some x, some y => some ((x : ℚ) + (y : ℚ) / ((10 : ℚ) ^ b.length))
    | _, _ => none
  | _ => none

/-- Model of `pd.to_numeric` on a string: optional sign, decimal digits,
optional fractional part; anything else fails. -/
def parseRat (s : String) : Option ℚ :=
  match stripChars s.data with
  | '-' :: rest => (parsePosRat rest).map Neg.neg
  | cs => parsePosRat cs

/-- Model of `pd.to_datetime` on a string: an ISO `YYYY-MM-DD` date with a
plausible month and day; anything else fails. -/
def parseDate (s : String) : Option (ℕ × ℕ × ℕ) :=
  match splitOnChar '-' (stripChars s.data) with
  | [y, m, d] =>
    match parseNatCore y, parseNatCore m, parseNatCore d with
    | some yy, some mm, some dd =>
      if 1 ≤ mm && mm ≤ 12 && 1 ≤ dd && dd ≤ 31 then some (yy, mm, dd) else none
    | _, _, _ => none
  | _ => none

/-- Python `str()` of a cell, as applied by `astype(str)`: the pandas
missing marker prints as `"nan"`. -/
def pyStr : Value → String
  | .missing => "nan"
  | .str s => s
  | .num q => toString q
  | .date y m d => toString y ++ "-" ++ toString m ++ "-" ++ toString d
  | .bool b => if b then "True" else "False"

/- ### Value coercions used by `convert_dtypes` and `handle_missing_values` -/

/-- `pd.to_datetime(col, errors="coerce")` on one cell: unparseable values
become missing (`NaT`). -/
def coerceDate : Value → Value
  | .date y m d => .date y m d
  | .str s =>
    match parseDate s with
    | some (y, m, d) => .date y m d
    | none => .missing
  | _ => .missing

/-- `pd.to_numeric(col, errors="coerce")` on one cell: unparseable values
become missing (`NaN`); booleans coerce to 0/1. -/
def coerceNum : Value → Value
  | .num q => .num q
  | .bool b => .num (if b then 1 else 0)
  | .str s =>
    match parseRat s with
    | some q => .num q
    | none => .missing
  | _ => .missing

/-- `astype("float64")` on one cell: numbers and missing pass through,
numeric strings parse, anything else raises (`none`). -/
def astypeFloat : Value → Option Value
  | .num q => some (.num q)
  | .missing => some .missing
  | .bool b => some (.num (if b then 1 else 0))
  | .str s => (parseRat s).map .num
  | .date _ _ _ => none

/-- The numeric content of a cell, `none` for anything else. -/
def toNum : Value → Option ℚ
  | .num q => some q
  | _ => none

/- ### Tables -/

/-- A dataframe: a header of column names and rows aligned with it. -/
structure Table where
  header : List String
  rows : List (List Value)
deriving DecidableEq, Repr

/-- Index of the first column with the given name. -/
def colIndex : List String → String → Option ℕ
  | [], _ => none
  | h :: t, c => if h = c then some 0 else (colIndex t c).map (· + 1)

/-- Whether the table has a column of this name. -/
def hasCol (t : Table) (c : String) : Bool := (colIndex t.header c).isSome

/-- The value of column `c` in row `r` (missing when the column is absent
or the row is short). -/
def rowValIn (header : List String) (c : String) (r : List Value) : Value :=
  match colIndex header c with
  | some i => r.getD i .missing
  | none => .missing

/-- `df[c] = df[c].map f`: pointwise update of one column; identity when
the column is absent. -/
def mapCol (t : Table) (c : String) (f : Value → Value) : Table :=
  match colIndex t.header c with
  | none => t
  | some i => ⟨t.header, t.rows.map fun r => r.set i (f (r.getD i .missing))⟩

/-- `df[c] = <rowwise expression>`: overwrite column `c` when it exists,
else append it; the new cell is computed from the whole row. -/
def setColF (t : Table) (c : String) (f : List Value → Value) : Table :=
  match colIndex t.header c with
  | some i => ⟨t.header, t.rows.map fun r => r.set i (f r)⟩
  | none => ⟨t.header ++ [c], t.rows.map fun r => r ++ [f r]⟩

/-- `Option`-valued `mapM` over a list, written recursively so that all
proofs are by structural induction. -/
def mapMOpt (f : α → Option β) : List α → Option (List β)
  | [] => some []
  | a :: l =>
    match f a, mapMOpt f l with
    | some b, some bs => some (b :: bs)
    | _, _ => none

/-- Fallible pointwise update of one column (`astype`, which raises on
failure). -/
def mapColM (t : Table) (c : String) (f : Value → Option Value) : Option Table :=
  match colIndex t.header c with
  | none => some t
  | some i =>
    match mapMOpt (fun r => (f (r.getD i .missing)).map fun v => r.set i v) t.rows with
    | some rs => some ⟨t.header, rs⟩
    | none => none

/- ### Pipeline stages (`retail_pipeline.py`) -/

/-- `convert_dtypes`: coerce `invoice_date` to datetime and `quantity`,
`unit_price` to numeric, failures becoming missing. -/
def convert_dtypes (t : Table) : Table :=
  mapCol (mapCol (mapCol t "invoice_date" coerceDate) "quantity" coerceNum)
    "unit_price" coerceNum

/-- The subset of `["invoice_no", "invoice_date"]` present in the header —
the `cols_to_check` of `drop_invalid_invoices`. -/
def checkCols (t : Table) : List String :=
  (if hasCol t "invoice_no" then ["invoice_no"] else []) ++
    (if hasCol t "invoice_date" then ["invoice_date"] else [])

/-- `drop_invalid_invoices`: `df.dropna(subset=cols_to_check)` — drop every
row with a missing value in a present check column; when neither check
column is present, the table is returned unchanged. -/
def drop_invalid_invoices (t : Table) : Table :=
  if (checkCols t).isEmpty then t
  else
    ⟨t.header,
      t.rows.filter fun r =>
        (checkCols t).all fun c => !(rowValIn t.header c r).isMissing⟩

/-- `handle_missing_values`: fill missing `description` with `"Unknown"`
then `astype(str).str.strip()`; `customer_id.astype("float64")` (which
raises — `none` — on an unparseable value). -/
def handle_missing_values (t : Table) : Option Table :=
  let t1 := mapCol t "description" fun v => if v.isMissing then .str "Unknown" else v
  let t2 := mapCol t1 "description" fun v => .str (pyStrip (pyStr v))
  mapColM t2 "customer_id" astypeFloat

/-- The fixed country alias table of `normalize_categorical`, applied
case-sensitively to the title-cased value. -/
def countryAlias (s : String) : String :=
  if s = "Uk" then "United Kingdom"
  else if s = "United Kingdom" then "United Kingdom"
  else if s = "Eire" then "Ireland"
  else s

/-- `normalize_categorical`: re-strip `description`; for `country`,
`astype(str).str.strip().str.title()` followed by `replace(country_map)`. -/
def normalize_categorical (t : Table) : Table :=
  let t1 := mapCol t "description" fun v => .str (pyStrip (pyStr v))
  let t2 := mapCol t1 "country" fun v => .str (pyTitle (pyStrip (pyStr v)))
  mapCol t2 "country" fun v =>
    match v with
    | .str s => .str (countryAlias s)
    | v => v

/-- Row-wise `quantity * unit_price`, missing-propagating. -/
def mulVals : Value → Value → Value
  | .num a, .num b => .num (a * b)
  | _, _ => .missing

/-- `dt.year` of a cell (`NaN` on `NaT`). -/
def yearOf : Value → Value
  | .date y _ _ => .num (y : ℚ)
  | _ => .missing

/-- `dt.month` of a cell (`NaN` on `NaT`). -/
def monthOf : Value → Value
  | .date _ m _ => .num (m : ℚ)
  | _ => .missing

/-- `df["total_value"] = df["quantity"] * df["unit_price"]`, guarded on
both columns existing. -/
def addTotalValue (t : Table) : Table :=
  if hasCol t "quantity" && hasCol t "unit_price" then
    setColF t "total_value" fun r =>
      mulVals (rowValIn t.header "quantity" r) (rowValIn t.header "unit_price" r)
  else t

/-- `df["year"]`/`df["month"]` from `invoice_date`, guarded on the column
existing.  (`invoice_date` is read at its index in `t.header`; appending
or overwriting `year` does not move it.) -/
def addYearMonth (t : Table) : Table :=
  if hasCol t "invoice_date" then
    setColF (setColF t "year" fun r => yearOf (rowValIn t.header "invoice_date" r))
      "month" fun r => monthOf (rowValIn t.header "invoice_date" r)
  else t

/-- `add_derived_columns`: `total_value` when both factors exist;
`year`/`month` when `invoice_date` exists. -/
def add_derived_columns (t : Table) : Table := addYearMonth (addTotalValue t)

/- ### Stable insertion sort (deterministic model of `sort_values` and of
the `groupby` key ordering) -/

/-- Insert `x` before the first element `y` with `le x y`; since `le` is a
"less or equal" test this keeps `x` before any element it ties with, so
`insSort` is a stable sort. -/
def insertBefore (le : α → α → Bool) (x : α) : List α → List α
  | [] => [x]
  | y :: ys => if le x y then x :: y :: ys else y :: insertBefore le x ys

/-- Stable insertion sort by the "less or equal" test `le`. -/
def insSort (le : α → α → Bool) : List α → List α
  | [] => []
  | a :: l => insertBefore le a (insSort le l)

/-- Code-point comparison of characters. -/
def charLe (a b : Char) : Bool := a.val ≤ b.val

/-- Lexicographic code-point comparison of character lists. -/
def charsLe : List Char → List Char → Bool
  | [], _ => true
  | _ :: _, [] => false
  | a :: as, b :: bs => if a = b then charsLe as bs else charLe a b

/-- Lexicographic string comparison (the order pandas sorts string group
keys by). -/
def strLe (a b : String) : Bool := charsLe a.data b.data

/-- Rank of a constructor, used to order values of different kinds. -/
def valRank : Value → ℕ
  | .missing => 0
  | .bool _ => 1
  | .num _ => 2
  | .date _ _ _ => 3
  | .str _ => 4

/-- A total "less or equal" test on cell values: values of the same kind
compare by content, different kinds by rank.  On the homogeneous key
columns the pipeline groups by, this is the pandas sort order. -/
def valLe (a b : Value) : Bool :=
  match a, b with
  | .num x, .num y => decide (x ≤ y)
  | .str x, .str y => strLe x y
  | .bool x, .bool y => !x || y
  | .date y1 m1 d1, .date y2 m2 d2 =>
    if y1 = y2 then (if m1 = m2 then d1 ≤ d2 else m1 ≤ m2) else y1 ≤ y2
  | .missing, .missing => true
  | a, b => valRank a ≤ valRank b

/- ### Duplicate detection (`deduplicate_and_log`) -/

/-- `df.drop_duplicates()` (keep `"first"`): keep a row exactly when no
identical row occurred earlier; `seen` accumulates rows already kept. -/
def dropDupsAux [DecidableEq α] : List α → List α → List α
  | [], _ => []
  | r :: rest, seen =>
    if r ∈ seen then dropDupsAux rest seen else r :: dropDupsAux rest (r :: seen)

/-- `df.drop_duplicates()`. -/
def dropDuplicates [DecidableEq α] (l : List α) : List α := dropDupsAux l []

/-- Number of occurrences of `a` in a list (the size of its full-row
equality group). -/
def countOcc [DecidableEq α] (a : α) : List α → ℕ
  | [] => 0
  | b :: l => (if b = a then 1 else 0) + countOcc a l

/-- `df[df.duplicated(keep=False)]`: every row that has a full-row
duplicate anywhere in the table (so every member of an equality group of
size at least two, its first occurrence included). -/
def dupLogRows [DecidableEq α] (l : List α) : List α :=
  l.filter fun r => decide (2 ≤ countOcc r l)

/-- The duplicate log file is written only when the log is non-empty. -/
def dupLogWritten [DecidableEq α] (l : List α) : Bool := !(dupLogRows l).isEmpty

/-- `deduplicate_and_log`, table part: drop full-row duplicates, keeping
first occurrences in order. -/
def deduplicate (t : Table) : Table := ⟨t.header, dropDuplicates t.rows⟩

/- ### Outlier detection (`detect_outliers_iqr`,
`flag_and_optionally_remove_outliers`) -/

/-- `series.quantile(k/4)` with the default linear interpolation, over the
values `xs`: with `s` the sorted values and `h = (k/4)·(n-1)`, the result
is `s[⌊h⌋]` when `h` is integral and
`s[⌊h⌋] + (h - ⌊h⌋)·(s[⌊h⌋+1] - s[⌊h⌋])` otherwise. -/
def quantileQuarters (xs : List ℚ) (k : ℕ) : ℚ :=
  let s := insSort (fun a b : ℚ => decide (a ≤ b)) xs
  let pos := k * (s.length - 1)
  let a := s.getD (pos / 4) 0
  if pos % 4 = 0 then a
  else
    let b := s.getD (pos / 4 + 1) 0
    a + (((pos % 4 : ℕ) : ℚ) / 4) * (b - a)

/-- `detect_outliers_iqr`, bounds part: `Q1 - 1.5·IQR` and `Q3 + 1.5·IQR`
from the quartiles of the series. -/
def detect_outliers_iqr (xs : List ℚ) : ℚ × ℚ :=
  let q1 := quantileQuarters xs 1
  let q3 := quantileQuarters xs 3
  let iqr := q3 - q1
  (q1 - 3 / 2 * iqr, q3 + 3 / 2 * iqr)

/-- The mask `(series < lower) | (series > upper)` at one cell; a missing
cell (excluded by `dropna` before the mask is built, and reindexed to
`False`) is never flagged. -/
def flagWith (b : ℚ × ℚ) : Option ℚ → Bool
  | some q => decide (q < b.1) || decide (b.2 < q)
  | none => false

/-- The full outlier-flag column for one numeric column: quartiles are
computed over the non-missing values only (`dropna`); when there are no
non-missing values the quantile is `NaN` and every comparison is `False`,
so no cell is flagged. -/
def flagColumn (col : List (Option ℚ)) : List Bool :=
  if (col.filterMap id).isEmpty then col.map fun _ => false
  else col.map (flagWith (detect_outliers_iqr (col.filterMap id)))

/-- The numeric reading of a table column. -/
def numCol (t : Table) (c : String) : List (Option ℚ) :=
  t.rows.map fun r => toNum (rowValIn t.header c r)

/-- Attach the flag column `is_outlier_<c>` for numeric column `c`. -/
def attachFlagCol (t : Table) (c flagName : String) : Table :=
  if ((numCol t c).filterMap id).isEmpty then
    setColF t flagName fun _ => .bool false
  else
    setColF t flagName fun r =>
      .bool (flagWith (detect_outliers_iqr ((numCol t c).filterMap id))
        (toNum (rowValIn t.header c r)))

/-- The `outlier_cols` list of `flag_and_optionally_remove_outliers`. -/
def outlierCols (t : Table) : List String :=
  (if hasCol t "quantity" then ["is_outlier_quantity"] else []) ++
    (if hasCol t "unit_price" then ["is_outlier_unit_price"] else [])

/-- `df[outlier_cols].any(axis=1)` at one row. -/
def anyFlagged (header : List String) (cols : List String) (r : List Value) : Bool :=
  cols.any fun c => rowValIn header c r == .bool true

/-- The `quantity` half of the flag attachment, guarded on the column
existing. -/
def attachQuantityFlag (t : Table) : Table :=
  if hasCol t "quantity" then attachFlagCol t "quantity" "is_outlier_quantity" else t

/-- The `unit_price` half of the flag attachment, guarded on the column
existing (checked on the table that may already carry the quantity
flag). -/
def attachPriceFlag (t : Table) : Table :=
  if hasCol t "unit_price" then attachFlagCol t "unit_price" "is_outlier_unit_price" else t

/-- The flag-attachment part of `flag_and_optionally_remove_outliers`. -/
def attachFlags (t : Table) : Table := attachPriceFlag (attachQuantityFlag t)

/-- The rows captured into the outlier log (taken before any removal). -/
def outlierLogRows (t : Table) : List (List Value) :=
  (attachFlags t).rows.filter
    (anyFlagged (attachFlags t).header (outlierCols (attachFlags t)))

/-- The outlier log file is written only when some row is flagged. -/
def outlierLogWritten (t : Table) : Bool :=
  outlierCols (attachFlags t) ≠ [] && !(outlierLogRows t).isEmpty

/-- `flag_and_optionally_remove_outliers`, table part: attach the flag
columns, then drop the flagged rows when `remove` is set. -/
def flag_and_optionally_remove_outliers (t : Table) (remove : Bool) : Table :=
  if outlierCols (attachFlags t) ≠ [] && remove then
    ⟨(attachFlags t).header,
      (attachFlags t).rows.filter fun r =>
        !anyFlagged (attachFlags t).header (outlierCols (attachFlags t)) r⟩
  else attachFlags t

/- ### Summary tables (`create_summary_tables`) -/

/-- Sum of the numeric values of a column slice, as `groupby(...).sum()`
computes it: missing values are skipped and an all-missing group sums
to 0. -/
def sumNums (vs : List Value) : ℚ := (vs.filterMap toNum).sum

/-- The distinct values of a list in first-occurrence order. -/
def distinctVals [DecidableEq α] (l : List α) : List α := dropDuplicates l

/-- `df.groupby("description")["total_value"].sum().reset_index()`: one
row per distinct description (pandas sorts group keys ascending), with the
group's summed `total_value`.  With the default `dropna=True`, `groupby`
drops every row whose key is missing, so no group is formed for a missing
description. -/
def productGroups (t : Table) : List (Value × ℚ) :=
  let pairs := (t.rows.map fun r =>
    (rowValIn t.header "description" r, rowValIn t.header "total_value" r)).filter
      fun p => !p.1.isMissing
  let keys := insSort valLe (distinctVals (pairs.map Prod.fst))
  keys.map fun k => (k, sumNums ((pairs.filter fun p => p.1 == k).map Prod.snd))

/-- Descending-by-`total_value` comparison used by
`sort_values("total_value", ascending=False)`. -/
def byValDesc (a b : Value × ℚ) : Bool := decide (b.2 ≤ a.2)

/-- The `top_products` table: group by description, sum, sort descending
by total value, keep the first 10 rows; an empty table when a required
column is absent.  The sort is modelled deterministically by `insSort`;
`sort_values`' default quicksort guarantees only sortedness and
permutation, not the relative order of tied sums, and no theorem below
relies on that order. -/
def topProducts (t : Table) : List (Value × ℚ) :=
  if hasCol t "total_value" && hasCol t "description" then
    (insSort byValDesc (productGroups t)).take 10
  else []

/-- `top10_products_by_sales.csv` is written exactly when the required
columns exist (even when the table has no rows). -/
def topProductsWritten (t : Table) : Bool :=
  hasCol t "total_value" && hasCol t "description"

/-- Ascending (year, month) comparison for `sort_values(["year","month"])`. -/
def byYearMonth (a b : (Value × Value) × ℚ) : Bool :=
  if a.1.1 = b.1.1 then valLe a.1.2 b.1.2 else valLe a.1.1 b.1.1

/-- The `revenue_by_month` table: group by (year, month) with missing keys
kept (`dropna=False`), sum `total_value`, sort ascending. -/
def revenueRows (t : Table) : List ((Value × Value) × ℚ) :=
  if hasCol t "total_value" && hasCol t "invoice_date" then
    let triples := t.rows.map fun r =>
      ((rowValIn t.header "year" r, rowValIn t.header "month" r),
        rowValIn t.header "total_value" r)
    let keys := distinctVals (triples.map Prod.fst)
    insSort byYearMonth
      (keys.map fun k => (k, sumNums ((triples.filter fun p => p.1 == k).map Prod.snd)))
  else []

/-- `revenue_by_month.csv` is written exactly when the required columns
exist (even when the table has no rows). -/
def revenueWritten (t : Table) : Bool :=
  hasCol t "total_value" && hasCol t "invoice_date"

/-- `df["customer_id"].nunique(dropna=True)`. -/
def nuniqueCustomers (t : Table) : ℕ :=
  (distinctVals ((numCol t "customer_id").filterMap id)).length

/-- The `overall_metrics` table: always exactly the two rows
`unique_customers` and `average_order_value`, each value possibly null.
`df.groupby("invoice_no")` uses the default `dropna=True`, so rows with a
missing invoice number form no group. -/
def metricsRows (t : Table) : List (String × Option ℚ) :=
  [("unique_customers", if hasCol t "customer_id" then some ((nuniqueCustomers t : ℕ) : ℚ) else none),
   ("average_order_value",
     if hasCol t "invoice_no" && hasCol t "total_value" then
       let invoices := (distinctVals
         (t.rows.map fun r => rowValIn t.header "invoice_no" r)).filter
           fun v => !v.isMissing
       let sums := invoices.map fun inv =>
         sumNums ((t.rows.filter fun r => rowValIn t.header "invoice_no" r == inv).map
           fun r => rowValIn t.header "total_value" r)
       if sums.isEmpty then none else some (sums.sum / sums.length)
     else none)]

/-- `overall_metrics.csv` is written on every run, unconditionally. -/
def metricsWritten (_t : Table) : Bool := true

/- ### The composed pipeline of `clean_and_analyze` (after the CSV read
and `standardize_column_names`; the input `Table` already carries its
canonical header). `none` models an uncaught exception. -/
def pipelineStages (t : Table) (removeOutliers : Bool) : Option Table :=
  let t1 := convert_dtypes t
  let t2 := drop_invalid_invoices t1
  match handle_missing_values t2 with
  | none => none
  | some t3 =>
    let t4 := normalize_categorical t3
    let t5 := add_derived_columns t4
    let t6 := deduplicate t5
    some (flag_and_optionally_remove_outliers t6 removeOutliers)

/- ### Supporting list lemmas -/

theorem getD_set_ne (l : List Value) (i j : ℕ) (v d : Value) (h : i ≠ j) :
    (l.set i v).getD j d = l.getD j d := by
  simp [List.getD, List.getElem?_set_ne h]

theorem getD_append_left (l l₂ : List Value) (i : ℕ) (d : Value) (h : i < l.length) :
    (l ++ l₂).getD i d = l.getD i d := by
  simp [List.getD, List.getElem?_append, h]

theorem getD_ne_imp_lt (l : List Value) (i : ℕ) (h : l.getD i .missing ≠ .missing) :
    i < l.length := by
  by_contra hc
  push_neg at hc
  have h2 : l[i]? = none := List.getElem?_eq_none hc
  simp [List.getD, h2] at h

theorem isMissing_false_iff (v : Value) : v.isMissing = false ↔ v ≠ .missing := by
  cases v <;> simp [Value.isMissing]

/- ### `colIndex` lemmas -/

theorem colIndex_getD {hd : List String} {c : String} {i : ℕ}
    (h : colIndex hd c = some i) : i < hd.length ∧ ∀ d, hd.getD i d = c := by
  induction hd generalizing i with
  | nil => simp [colIndex] at h
  | cons x xs ih =>
    by_cases hx : x = c
    · simp only [colIndex, if_pos hx, Option.some.injEq] at h
      subst h
      simpa using hx
    · simp only [colIndex, if_neg hx, Option.map_eq_some'] at h
      obtain ⟨j, hj, rfl⟩ := h
      obtain ⟨hlt, hget⟩ := ih hj
      refine ⟨by simpa using hlt, fun d => ?_⟩
      simpa [List.getD] using hget d

theorem colIndex_ne {hd : List String} {c c' : String} {i j : ℕ}
    (hc : colIndex hd c = some i) (hc' : colIndex hd c' = some j)
    (hne : c ≠ c') : i ≠ j := by
  intro hij
  subst hij
  exact hne (((colIndex_getD hc).2 "").symm.trans ((colIndex_getD hc').2 ""))

theorem colIndex_append_some {hd : List String} {c : String} {i : ℕ}
    (h : colIndex hd c = some i) (l : List String) :
    colIndex (hd ++ l) c = some i := by
  induction hd generalizing i with
  | nil => simp [colIndex] at h
  | cons x xs ih =>
    by_cases hx : x = c
    · simp only [colIndex, if_pos hx, Option.some.injEq] at h
      simp [colIndex, hx, ← h]
    · simp only [colIndex, if_neg hx, Option.map_eq_some'] at h
      obtain ⟨j, hj, rfl⟩ := h
      simp [colIndex, hx, ih hj]

theorem colIndex_append_none {hd : List String} {c c' : String}
    (h : colIndex hd c = none) (hne : c ≠ c') :
    colIndex (hd ++ [c']) c = none := by
  induction hd with
  | nil =>
    have : ¬c' = c := fun h' => hne h'.symm
    simp [colIndex, this]
  | cons x xs ih =>
    by_cases hx : x = c
    · simp [colIndex, hx] at h
    · simp only [colIndex, if_neg hx, Option.map_eq_none'] at h
      simp [colIndex, hx, ih h]

theorem rowValIn_of_some {header : List String} {c : String} {i : ℕ}
    (h : colIndex header c = some i) (r : List Value) :
    rowValIn header c r = r.getD i .missing := by
  unfold rowValIn
  rw [h]

theorem rowValIn_of_none {header : List String} {c : String}
    (h : colIndex header c = none) (r : List Value) :
    rowValIn header c r = .missing := by
  unfold rowValIn
  rw [h]

/- ### The "no missing value in column `c`" invariant and its preservation -/

/-- Every row of `t` has a non-missing value in column `c`. -/
def NoMissingIn (t : Table) (c : String) : Prop :=
  ∀ r ∈ t.rows, rowValIn t.header c r ≠ .missing

theorem mapCol_header (t : Table) (c : String) (f : Value → Value) :
    (mapCol t c f).header = t.header := by
  unfold mapCol
  cases colIndex t.header c <;> rfl

theorem noMissing_of_set {header : List String} {c c' : String} {j : ℕ}
    (hj : colIndex header c' = some j) (hne : c ≠ c')
    {r : List Value} (h : rowValIn header c r ≠ .missing) (v : Value) :
    rowValIn header c (r.set j v) ≠ .missing := by
  cases hci : colIndex header c with
  | none => rw [rowValIn_of_none hci] at h; exact absurd rfl h
  | some i =>
    rw [rowValIn_of_some hci] at h
    rw [rowValIn_of_some hci]
    rw [getD_set_ne _ _ _ _ _ (Ne.symm (colIndex_ne hci hj hne))]
    exact h

theorem noMissing_mapCol {t : Table} {c c' : String} {f : Value → Value}
    (hne : c ≠ c') (h : NoMissingIn t c) : NoMissingIn (mapCol t c' f) c := by
  unfold mapCol
  cases hidx : colIndex t.header c' with
  | none => exact h
  | some j =>
    intro r' hr'
    simp only [List.mem_map] at hr'
    obtain ⟨r, hr, rfl⟩ := hr'
    exact noMissing_of_set hidx hne (h r hr) _

theorem noMissing_setColF {t : Table} {c c' : String} {f : List Value → Value}
    (hne : c ≠ c') (h : NoMissingIn t c) : NoMissingIn (setColF t c' f) c := by
  unfold setColF
  cases hidx : colIndex t.header c' with
  | some j =>
    intro r' hr'
    simp only [List.mem_map] at hr'
    obtain ⟨r, hr, rfl⟩ := hr'
    exact noMissing_of_set hidx hne (h r hr) _
  | none =>
    intro r' hr'
    simp only [List.mem_map] at hr'
    obtain ⟨r, hr, rfl⟩ := hr'
    have hrow := h r hr
    cases hci : colIndex t.header c with
    | none => rw [rowValIn_of_none hci] at hrow; exact absurd rfl hrow
    | some i =>
      rw [rowValIn_of_some hci] at hrow
      rw [rowValIn_of_some (colIndex_append_some hci [c'])]
      rw [getD_append_left _ _ _ _ (getD_ne_imp_lt _ _ hrow)]
      exact hrow

theorem mapMOpt_mem {f : α → Option β} {l : List α} {res : List β}
    (h : mapMOpt f l = some res) : ∀ b ∈ res, ∃ a ∈ l, f a = some b := by
  induction l generalizing res with
  | nil =>
    simp only [mapMOpt, Option.some.injEq] at h
    subst h
    simp
  | cons a l ih =>
    unfold mapMOpt at h
    cases hfa : f a with
    | none => rw [hfa] at h; exact absurd h (by simp)
    | some b =>
      rw [hfa] at h
      cases hml : mapMOpt f l with
      | none => rw [hml] at h; exact absurd h (by simp)
      | some bs =>
        rw [hml] at h
        simp only [Option.some.injEq] at h
        subst h
        intro b' hb'
        rcases List.mem_cons.mp hb' with rfl | hb'
        · exact ⟨a, by simp, hfa⟩
        · obtain ⟨a', ha', hfa'⟩ := ih hml b' hb'
          exact ⟨a', by simp [ha'], hfa'⟩

theorem noMissing_mapColM {t t' : Table} {c c' : String} {f : Value → Option Value}
    (hne : c ≠ c') (hm : mapColM t c' f = some t') (h : NoMissingIn t c) :
    NoMissingIn t' c := by
  unfold mapColM at hm
  split at hm
  · simp only [Option.some.injEq] at hm
    subst hm
    exact h
  · rename_i j hidx
    split at hm
    · rename_i rs hmm
      simp only [Option.some.injEq] at hm
      subst hm
      intro r' hr'
      obtain ⟨r, hr, hfr⟩ := mapMOpt_mem hmm r' hr'
      simp only [Option.map_eq_some'] at hfr
      obtain ⟨v, _, rfl⟩ := hfr
      exact noMissing_of_set hidx hne (h r hr) _
    · exact absurd hm (by simp)

theorem noMissing_filter {t : Table} {c : String} {p : List Value → Bool}
    (h : NoMissingIn t c) : NoMissingIn ⟨t.header, t.rows.filter p⟩ c :=
  fun r hr => h r (List.mem_of_mem_filter hr)

/- ### Establishment of the invariant by the Validity Filter -/

theorem mem_checkCols {t : Table} {c : String} :
    c ∈ checkCols t ↔ (c = "invoice_no" ∨ c = "invoice_date") ∧ hasCol t c = true := by
  unfold checkCols
  constructor
  · intro hc
    rcases List.mem_append.mp hc with h | h
    · by_cases h1 : hasCol t "invoice_no" = true
      · rw [if_pos h1] at h
        simp only [List.mem_singleton] at h
        subst h
        exact ⟨Or.inl rfl, h1⟩
      · rw [if_neg h1] at h
        simp at h
    · by_cases h2 : hasCol t "invoice_date" = true
      · rw [if_pos h2] at h
        simp only [List.mem_singleton] at h
        subst h
        exact ⟨Or.inr rfl, h2⟩
      · rw [if_neg h2] at h
        simp at h
  · rintro ⟨rfl | rfl, hcol⟩
    · refine List.mem_append.mpr (Or.inl ?_)
      rw [if_pos hcol]
      simp
    · refine List.mem_append.mpr (Or.inr ?_)
      rw [if_pos hcol]
      simp

theorem drop_invalid_header (t : Table) :
    (drop_invalid_invoices t).header = t.header := by
  unfold drop_invalid_invoices
  split <;> rfl

theorem noMissing_drop_invalid {t : Table} {c : String} (hc : c ∈ checkCols t) :
    NoMissingIn (drop_invalid_invoices t) c := by
  have hne : ¬(checkCols t).isEmpty = true := by
    intro he
    rw [List.isEmpty_iff] at he
    rw [he] at hc
    simp at hc
  have hdrop : drop_invalid_invoices t =
      ⟨t.header, t.rows.filter fun r =>
        (checkCols t).all fun c => !(rowValIn t.header c r).isMissing⟩ := by
    unfold drop_invalid_invoices
    rw [if_neg hne]
  rw [hdrop]
  intro r hr
  have hmem := List.mem_filter.mp hr
  have hall := List.all_eq_true.mp hmem.2 c hc
  simp only [Bool.not_eq_eq_eq_not, Bool.not_true] at hall
  exact (isMissing_false_iff _).mp hall

/- ### Transport of the invariant through the later stages -/

theorem noMissing_handle {t t' : Table} {c : String}
    (hdsc : c ≠ "description") (hcid : c ≠ "customer_id")
    (hm : handle_missing_values t = some t') (h : NoMissingIn t c) :
    NoMissingIn t' c := by
  simp only [handle_missing_values] at hm
  exact noMissing_mapColM hcid hm (noMissing_mapCol hdsc (noMissing_mapCol hdsc h))

theorem noMissing_normalize {t : Table} {c : String}
    (hdsc : c ≠ "description") (hcty : c ≠ "country") (h : NoMissingIn t c) :
    NoMissingIn (normalize_categorical t) c := by
  simp only [normalize_categorical]
  exact noMissing_mapCol hcty (noMissing_mapCol hcty (noMissing_mapCol hdsc h))

theorem noMissing_addTotalValue {t : Table} {c : String}
    (htv : c ≠ "total_value") (h : NoMissingIn t c) :
    NoMissingIn (addTotalValue t) c := by
  unfold addTotalValue
  split
  · exact noMissing_setColF htv h
  · exact h

theorem noMissing_addYearMonth {t : Table} {c : String}
    (hy : c ≠ "year") (hmo : c ≠ "month") (h : NoMissingIn t c) :
    NoMissingIn (addYearMonth t) c := by
  unfold addYearMonth
  split
  · exact noMissing_setColF hmo (noMissing_setColF hy h)
  · exact h

theorem dropDupsAux_sublist [DecidableEq α] (l seen : List α) :
    List.Sublist (dropDupsAux l seen) l := by
  induction l generalizing seen with
  | nil => simp [dropDupsAux]
  | cons r rest ih =>
    unfold dropDupsAux
    by_cases hr : r ∈ seen
    · rw [if_pos hr]
      exact (ih seen).cons r
    · rw [if_neg hr]
      exact (ih (r :: seen)).cons₂ r

theorem noMissing_dedup {t : Table} {c : String} (h : NoMissingIn t c) :
    NoMissingIn (deduplicate t) c :=
  fun r hr => h r ((dropDupsAux_sublist _ _).subset hr)

theorem noMissing_attachFlagCol {t : Table} {c cc flagName : String}
    (hf : c ≠ flagName) (h : NoMissingIn t c) :
    NoMissingIn (attachFlagCol t cc flagName) c := by
  unfold attachFlagCol
  split
  · exact noMissing_setColF hf h
  · exact noMissing_setColF hf h

theorem noMissing_attachFlags {t : Table} {c : String}
    (h1 : c ≠ "is_outlier_quantity") (h2 : c ≠ "is_outlier_unit_price")
    (h : NoMissingIn t c) : NoMissingIn (attachFlags t) c := by
  unfold attachFlags
  have ht1 : NoMissingIn (attachQuantityFlag t) c := by
    unfold attachQuantityFlag
    split
    · exact noMissing_attachFlagCol h1 h
    · exact h
  unfold attachPriceFlag
  split
  · exact noMissing_attachFlagCol h2 ht1
  · exact ht1

theorem noMissing_flag {t : Table} {c : String} {rm : Bool}
    (h1 : c ≠ "is_outlier_quantity") (h2 : c ≠ "is_outlier_unit_price")
    (h : NoMissingIn t c) :
    NoMissingIn (flag_and_optionally_remove_outliers t rm) c := by
  unfold flag_and_optionally_remove_outliers
  have ht2 := noMissing_attachFlags h1 h2 h
  split
  · exact noMissing_filter ht2
  · exact ht2

theorem convert_header (t : Table) : (convert_dtypes t).header = t.header := by
  unfold convert_dtypes
  rw [mapCol_header, mapCol_header, mapCol_header]

theorem hasCol_convert (t : Table) (c : String) :
    hasCol (convert_dtypes t) c = hasCol t c := by
  unfold hasCol
  rw [convert_header]

theorem checkCols_convert (t : Table) : checkCols (convert_dtypes t) = checkCols t := by
  unfold checkCols
  rw [hasCol_convert, hasCol_convert]

theorem pipeline_preserves_validity {t : Table} {rm : Bool} {out : Table}
    (hp : pipelineStages t rm = some out) {c : String}
    (hc : c = "invoice_no" ∨ c = "invoice_date") (hcol : hasCol t c = true) :
    NoMissingIn out c := by
  have hdsc : c ≠ "description" := by rcases hc with rfl | rfl <;> decide
  have hcid : c ≠ "customer_id" := by rcases hc with rfl | rfl <;> decide
  have hcty : c ≠ "country" := by rcases hc with rfl | rfl <;> decide
  have htv : c ≠ "total_value" := by rcases hc with rfl | rfl <;> decide
  have hy : c ≠ "year" := by rcases hc with rfl | rfl <;> decide
  have hmo : c ≠ "month" := by rcases hc with rfl | rfl <;> decide
  have hf1 : c ≠ "is_outlier_quantity" := by rcases hc with rfl | rfl <;> decide
  have hf2 : c ≠ "is_outlier_unit_price" := by rcases hc with rfl | rfl <;> decide
  simp only [pipelineStages] at hp
  split at hp
  · exact absurd hp (by simp)
  · rename_i t3 heq
    simp only [Option.some.injEq] at hp
    subst hp
    have hcheck : c ∈ checkCols (convert_dtypes t) := by
      rw [checkCols_convert]
      exact mem_checkCols.mpr ⟨hc, hcol⟩
    have h2 := noMissing_drop_invalid hcheck
    have h3 := noMissing_handle hdsc hcid heq h2
    have h4 := noMissing_normalize hdsc hcty h3
    have h5 := noMissing_addYearMonth hy hmo (noMissing_addTotalValue htv h4)
    have h6 := noMissing_dedup (t := add_derived_columns (normalize_categorical t3)) h5
    exact noMissing_flag hf1 hf2 h6

/- ### Claim C1 -/

/-- **C1.** After the Validity Filter every surviving row has non-missing
`invoice_no` and `invoice_date`, restricted to whichever of those columns
are present; if neither is present no rows are dropped; and the invariant
still holds of every row of the cleaned output, because no later stage
reintroduces missing values in those columns. -/
theorem c1_validity_filter_invariant :
    (∀ t : Table, hasCol t "invoice_no" = false → hasCol t "invoice_date" = false →
        drop_invalid_invoices t = t) ∧
    (∀ (t : Table) (c : String) (r : List Value),
        (c = "invoice_no" ∨ c = "invoice_date") → hasCol t c = true →
        r ∈ (drop_invalid_invoices t).rows →
        rowValIn (drop_invalid_invoices t).header c r ≠ Value.missing) ∧
    (∀ (t : Table) (rm : Bool) (out : Table) (c : String) (r : List Value),
        pipelineStages t rm = some out →
        (c = "invoice_no" ∨ c = "invoice_date") → hasCol t c = true →
        r ∈ out.rows → rowValIn out.header c r ≠ Value.missing) := by
  refine ⟨?_, ?_, ?_⟩
  · intro t h1 h2
    have hempty : (checkCols t).isEmpty = true := by
      unfold checkCols
      rw [if_neg (by simp [h1]), if_neg (by simp [h2])]
      rfl
    unfold drop_invalid_invoices
    rw [if_pos hempty]
  · intro t c r hc hcol hr
    exact noMissing_drop_invalid (mem_checkCols.mpr ⟨hc, hcol⟩) r hr
  · intro t rm out c r hp hc hcol hr
    exact pipeline_preserves_validity hp hc hcol r hr

/-- Concrete input for the C1 witness: two rows, the second with a
missing `invoice_no`. -/
def tableC1 : Table :=
  ⟨["invoice_no", "country"],
    [[.str "A", .str "UK"], [.missing, .str "eire"]]⟩

/-- The cleaned output of the pipeline on `tableC1`. -/
def outC1 : Table :=
  ⟨["invoice_no", "country"], [[.str "A", .str "United Kingdom"]]⟩

theorem c1_validity_filter_invariant_witness :
    pipelineStages tableC1 false = some outC1 ∧
    rowValIn outC1.header "invoice_no" [Value.str "A", Value.str "United Kingdom"]
      ≠ Value.missing :=
  ⟨by decide,
    c1_validity_filter_invariant.2.2 tableC1 false outC1 "invoice_no"
      [Value.str "A", Value.str "United Kingdom"]
      (by decide) (Or.inl rfl) (by decide) (by decide)⟩

/- ### Duplicate-detector lemmas -/

theorem mem_dropDupsAux [DecidableEq α] {l seen : List α} {r : α} :
    r ∈ dropDupsAux l seen ↔ r ∈ l ∧ r ∉ seen := by
  induction l generalizing seen with
  | nil => simp [dropDupsAux]
  | cons x rest ih =>
    unfold dropDupsAux
    by_cases hx : x ∈ seen
    · rw [if_pos hx, ih]
      constructor
      · rintro ⟨hr, hs⟩
        exact ⟨List.mem_cons_of_mem _ hr, hs⟩
      · rintro ⟨hr, hs⟩
        rcases List.mem_cons.mp hr with rfl | hr
        · exact absurd hx hs
        · exact ⟨hr, hs⟩
    · rw [if_neg hx]
      constructor
      · intro hmem
        rcases List.mem_cons.mp hmem with rfl | hmem
        · exact ⟨List.mem_cons_self _ _, hx⟩
        · obtain ⟨hr, hs⟩ := ih.mp hmem
          exact ⟨List.mem_cons_of_mem _ hr,
            fun hc => hs (List.mem_cons_of_mem _ hc)⟩
      · rintro ⟨hr, hs⟩
        rcases List.mem_cons.mp hr with rfl | hr
        · exact List.mem_cons_self _ _
        · by_cases hrx : r = x
          · subst hrx
            exact List.mem_cons_self _ _
          · exact List.mem_cons_of_mem _
              (ih.mpr ⟨hr, fun hc => (List.mem_cons.mp hc).elim hrx hs⟩)

theorem nodup_dropDupsAux [DecidableEq α] (l seen : List α) :
    (dropDupsAux l seen).Nodup := by
  induction l generalizing seen with
  | nil => simp [dropDupsAux]
  | cons x rest ih =>
    unfold dropDupsAux
    by_cases hx : x ∈ seen
    · rw [if_pos hx]
      exact ih seen
    · rw [if_neg hx]
      refine List.Nodup.cons ?_ (ih (x :: seen))
      intro hmem
      exact (mem_dropDupsAux.mp hmem).2 (List.mem_cons_self _ _)

theorem mem_dropDuplicates [DecidableEq α] {l : List α} {r : α} :
    r ∈ dropDuplicates l ↔ r ∈ l := by
  unfold dropDuplicates
  rw [mem_dropDupsAux]
  simp

theorem dropDupsAux_of_nodup [DecidableEq α] {l : List α} (h : l.Nodup) :
    ∀ seen : List α, (∀ x ∈ l, x ∉ seen) → dropDupsAux l seen = l := by
  induction l with
  | nil => intro seen _; rfl
  | cons x rest ih =>
    intro seen hdisj
    unfold dropDupsAux
    rw [if_neg (hdisj x (List.mem_cons_self _ _))]
    rw [ih (List.Nodup.of_cons h) (x :: seen) ?_]
    intro y hy hmem
    rcases List.mem_cons.mp hmem with rfl | hmem
    · exact (List.nodup_cons.mp h).1 hy
    · exact hdisj y (List.mem_cons_of_mem _ hy) hmem

theorem dropDuplicates_of_nodup [DecidableEq α] {l : List α} (h : l.Nodup) :
    dropDuplicates l = l :=
  dropDupsAux_of_nodup h [] (by simp)

theorem dropDupsAux_foldl [DecidableEq α] (l : List α) :
    ∀ (seen acc : List α), (∀ x, x ∈ seen ↔ x ∈ acc) →
      acc ++ dropDupsAux l seen =
        l.foldl (fun acc r => if r ∈ acc then acc else acc ++ [r]) acc := by
  induction l with
  | nil => intro seen acc _; simp [dropDupsAux]
  | cons x rest ih =>
    intro seen acc h
    unfold dropDupsAux
    simp only [List.foldl_cons]
    by_cases hx : x ∈ seen
    · rw [if_pos hx, if_pos ((h x).mp hx)]
      exact ih seen acc h
    · rw [if_neg hx, if_neg (fun hc => hx ((h x).mpr hc))]
      rw [show acc ++ x :: dropDupsAux rest (x :: seen) =
        (acc ++ [x]) ++ dropDupsAux rest (x :: seen) by simp]
      refine ih (x :: seen) (acc ++ [x]) ?_
      intro y
      rw [List.mem_cons, List.mem_append, List.mem_singleton, h y]
      tauto

theorem countOcc_eq_count [DecidableEq α] (a : α) (l : List α) :
    countOcc a l = l.count a := by
  induction l with
  | nil => rfl
  | cons b l ih =>
    rw [countOcc, List.count_cons, ih]
    by_cases hb : b = a <;> simp [hb, Nat.add_comm]

theorem countOcc_pos_of_mem [DecidableEq α] {a : α} {l : List α} (h : a ∈ l) :
    0 < countOcc a l := by
  rw [countOcc_eq_count]
  exact List.count_pos_iff.mpr h

theorem countOcc_eq_zero_of_not_mem [DecidableEq α] {a : α} {l : List α}
    (h : a ∉ l) : countOcc a l = 0 := by
  rw [countOcc_eq_count]
  exact List.count_eq_zero.mpr h

theorem countOcc_le_one_of_nodup [DecidableEq α] {l : List α} (h : l.Nodup)
    (a : α) : countOcc a l ≤ 1 := by
  rw [countOcc_eq_count]
  exact List.nodup_iff_count_le_one.mp h a

theorem count_dropDuplicates [DecidableEq α] (l : List α) (r : α) :
    countOcc r (dropDuplicates l) = if r ∈ l then 1 else 0 := by
  by_cases hm : r ∈ l
  · rw [if_pos hm]
    refine le_antisymm
      (countOcc_le_one_of_nodup (nodup_dropDupsAux l []) r) ?_
    exact countOcc_pos_of_mem (mem_dropDuplicates.mpr hm)
  · rw [if_neg hm]
    exact countOcc_eq_zero_of_not_mem fun hc => hm (mem_dropDuplicates.mp hc)

theorem count_dupLogRows [DecidableEq α] (l : List α) (r : α) :
    countOcc r (dupLogRows l) = if 2 ≤ countOcc r l then countOcc r l else 0 := by
  by_cases h2 : 2 ≤ countOcc r l
  · rw [if_pos h2]
    rw [countOcc_eq_count, countOcc_eq_count]
    exact List.count_filter (by simpa using h2)
  · rw [if_neg h2]
    refine countOcc_eq_zero_of_not_mem fun hc => ?_
    have := (List.mem_filter.mp hc).2
    simp at this
    exact h2 this

/- ### Claim C3 -/

/-- **C3.** The duplicate log holds exactly the rows of the input that lie
in a full-row equality group of size at least two (each occurrence, the
first included), in input order and taken before any removal; dropping
duplicates then keeps exactly one (the first) occurrence of each distinct
row, in input order; two fully identical rows leave one survivor while
both enter the log. -/
theorem c3_duplicate_detector :
    (∀ rows : List (List Value), List.Sublist (dupLogRows rows) rows) ∧
    (∀ (rows : List (List Value)) (r : List Value),
        countOcc r (dupLogRows rows) =
          if 2 ≤ countOcc r rows then countOcc r rows else 0) ∧
    (∀ rows : List (List Value), List.Sublist (dropDuplicates rows) rows) ∧
    (∀ (γ : Type) [DecidableEq γ] (rows : List γ) (r : γ),
        countOcc r (dropDuplicates rows) = if r ∈ rows then 1 else 0) ∧
    (∀ (β : Type) [DecidableEq β] (rows : List β),
        dropDuplicates rows =
          rows.foldl (fun acc r => if r ∈ acc then acc else acc ++ [r]) []) ∧
    (∀ r : List Value,
        dupLogRows [r, r] = [r, r] ∧ dropDuplicates [r, r] = [r] ∧
          ∀ hdr : List String, deduplicate ⟨hdr, [r, r]⟩ = ⟨hdr, [r]⟩) := by
  refine ⟨?_, ?_, ?_, ?_, ?_, ?_⟩
  · intro rows
    exact List.filter_sublist rows
  · intro rows r
    exact count_dupLogRows rows r
  · intro rows
    exact dropDupsAux_sublist rows []
  · intro γ instγ rows r
    exact count_dropDuplicates rows r
  · intro β instβ rows
    simpa [dropDuplicates] using dropDupsAux_foldl rows [] [] (by simp)
  · intro r
    refine ⟨?_, ?_, ?_⟩
    · unfold dupLogRows
      rw [List.filter_cons, List.filter_cons]
      simp [countOcc]
    · unfold dropDuplicates dropDupsAux
      rw [if_neg (by simp)]
      unfold dropDupsAux
      rw [if_pos (by simp)]
      rfl
    · intro hdr
      unfold deduplicate
      simp only [Table.mk.injEq, true_and]
      unfold dropDuplicates dropDupsAux
      rw [if_neg (by simp)]
      unfold dropDupsAux
      rw [if_pos (by simp)]
      rfl

/- ### Claim C7 -/

/-- **C7.** Deduplication is idempotent: applied to its own output it
returns the table unchanged, the duplicate log of that second run is
empty, and hence no duplicate-log file is written on the second run. -/
theorem c7_dedup_idempotent :
    (∀ t : Table, deduplicate (deduplicate t) = deduplicate t) ∧
    (∀ t : Table, dupLogRows (deduplicate t).rows = []) ∧
    (∀ t : Table, dupLogWritten (deduplicate t).rows = false) := by
  have hlog : ∀ t : Table, dupLogRows (deduplicate t).rows = [] := by
    intro t
    refine List.filter_eq_nil_iff.mpr fun r hr => ?_
    have hc : countOcc r (deduplicate t).rows ≤ 1 :=
      countOcc_le_one_of_nodup (nodup_dropDupsAux t.rows []) r
    simp only [decide_eq_true_eq]
    omega
  refine ⟨?_, hlog, ?_⟩
  · intro t
    unfold deduplicate
    simp only [Table.mk.injEq, true_and]
    exact dropDuplicates_of_nodup (nodup_dropDupsAux t.rows [])
  · intro t
    unfold dupLogWritten
    rw [hlog t]
    rfl

/- ### Row-level lemmas for `mapCol` -/

theorem mapCol_eq_none {t : Table} {c : String} {f : Value → Value}
    (h : colIndex t.header c = none) : mapCol t c f = t := by
  unfold mapCol
  rw [h]

theorem mapCol_rows_some {t : Table} {c : String} {f : Value → Value} {i : ℕ}
    (h : colIndex t.header c = some i) :
    (mapCol t c f).rows = t.rows.map fun r => r.set i (f (r.getD i .missing)) := by
  unfold mapCol
  rw [h]

theorem getD_map_lt {l : List α} (g : α → β) {i : ℕ} (h : i < l.length)
    (d : β) (d' : α) : (l.map g).getD i d = g (l.getD i d') := by
  have h1 : l[i]? = some l[i] := List.getElem?_eq_getElem h
  simp [List.getD, List.getElem?_map, h1, List.getElem?_eq_getElem, h]

theorem getD_set_self_lt (l : List Value) (j : ℕ) (v d : Value)
    (h : j < l.length) : (l.set j v).getD j d = v := by
  simp [List.getD, List.getElem?_set_self, h]

theorem mapCol_rows_length (t : Table) (c : String) (f : Value → Value) :
    (mapCol t c f).rows.length = t.rows.length := by
  cases h : colIndex t.header c with
  | none => rw [mapCol_eq_none h]
  | some i => rw [mapCol_rows_some h, List.length_map]

/-- The value of column `c` in the `i`-th row of `t`. -/
def valAt (t : Table) (c : String) (i : ℕ) : Value :=
  rowValIn t.header c (t.rows.getD i [])

theorem mapCol_row_length {t : Table} {c : String} {f : Value → Value} {i : ℕ}
    (hi : i < t.rows.length) :
    ((mapCol t c f).rows.getD i []).length = (t.rows.getD i []).length := by
  cases h : colIndex t.header c with
  | none => rw [mapCol_eq_none h]
  | some j =>
    rw [mapCol_rows_some h, getD_map_lt _ hi [] []]
    exact List.length_set ..

theorem valAt_mapCol_other {t : Table} {c c' : String} {f : Value → Value} {i : ℕ}
    (hne : c ≠ c') (hi : i < t.rows.length) :
    valAt (mapCol t c' f) c i = valAt t c i := by
  cases hidx : colIndex t.header c' with
  | none => rw [mapCol_eq_none hidx]
  | some j =>
    unfold valAt
    rw [mapCol_header, mapCol_rows_some hidx, getD_map_lt _ hi [] []]
    cases hci : colIndex t.header c with
    | none => rw [rowValIn_of_none hci, rowValIn_of_none hci]
    | some k =>
      rw [rowValIn_of_some hci, rowValIn_of_some hci,
        getD_set_ne _ _ _ _ _ (Ne.symm (colIndex_ne hci hidx hne))]

theorem valAt_mapCol_self {t : Table} {c : String} {f : Value → Value} {i j : ℕ}
    (hidx : colIndex t.header c = some j) (hi : i < t.rows.length)
    (hj : j < (t.rows.getD i []).length) :
    valAt (mapCol t c f) c i = f (valAt t c i) := by
  unfold valAt
  rw [mapCol_header, mapCol_rows_some hidx, getD_map_lt _ hi [] [],
    rowValIn_of_some hidx, rowValIn_of_some hidx,
    getD_set_self_lt _ _ _ _ (by simpa using hj)]

/- ### Claim C9 -/

/-- **C9.** A non-missing country value is stripped, title-cased, and then
passed through the fixed alias table `{Uk ↦ United Kingdom,
United Kingdom ↦ United Kingdom, Eire ↦ Ireland}` case-sensitively on the
title-cased form; unmatched values pass through title-cased; `"UK"`,
`"United Kingdom"` and `"eire"` normalize to `"United Kingdom"`,
`"United Kingdom"` and `"Ireland"`. -/
theorem c9_country_normalization :
    (∀ s : String,
        normalize_categorical ⟨["country"], [[.str s]]⟩ =
          ⟨["country"], [[.str (countryAlias (pyTitle (pyStrip s)))]]⟩) ∧
    (∀ s : String,
        pyTitle (pyStrip s) ≠ "Uk" → pyTitle (pyStrip s) ≠ "United Kingdom" →
        pyTitle (pyStrip s) ≠ "Eire" →
        countryAlias (pyTitle (pyStrip s)) = pyTitle (pyStrip s)) ∧
    (normalize_categorical
        ⟨["country"], [[.str "UK"], [.str "United Kingdom"], [.str "eire"]]⟩ =
      ⟨["country"],
        [[.str "United Kingdom"], [.str "United Kingdom"], [.str "Ireland"]]⟩) := by
  refine ⟨?_, ?_, by decide⟩
  · intro s
    rfl
  · intro s h1 h2 h3
    unfold countryAlias
    rw [if_neg h1, if_neg h2, if_neg h3]

theorem c9_country_normalization_witness :
    (pyTitle (pyStrip "France") ≠ "Uk" ∧ pyTitle (pyStrip "France") ≠ "United Kingdom" ∧
      pyTitle (pyStrip "France") ≠ "Eire") ∧
    countryAlias (pyTitle (pyStrip "France")) = pyTitle (pyStrip "France") :=
  ⟨⟨by decide, by decide, by decide⟩,
    c9_country_normalization.2.1 "France" (by decide) (by decide) (by decide)⟩

/- ### Claim C10 -/

/-- **C10.** In a (rectangular) table with a `country` column, a row whose
country value is missing leaves the Categorical Normalizer with the
literal string `"Nan"`: `astype(str)` prints the missing marker as
`"nan"`, title-casing turns it into `"Nan"`, and the alias table does not
match it — so missing countries are not preserved as missing. -/
theorem c10_missing_country_becomes_nan :
    (∀ (t : Table) (i : ℕ),
        (∀ r ∈ t.rows, r.length = t.header.length) →
        hasCol t "country" = true →
        i < t.rows.length →
        rowValIn t.header "country" (t.rows.getD i []) = Value.missing →
        rowValIn (normalize_categorical t).header "country"
          ((normalize_categorical t).rows.getD i []) = Value.str "Nan") ∧
    (normalize_categorical ⟨["country"], [[Value.missing]]⟩ =
      ⟨["country"], [[Value.str "Nan"]]⟩) := by
  refine ⟨?_, by decide⟩
  intro t i hwf hcol hi hmiss
  obtain ⟨j, hidx⟩ := Option.isSome_iff_exists.mp hcol
  have hjlen : j < (t.rows.getD i []).length := by
    have hmem : t.rows.getD i [] ∈ t.rows := by
      have : t.rows.getD i [] = t.rows[i] := by
        simp [List.getD, List.getElem?_eq_getElem, hi]
      rw [this]
      exact List.getElem_mem hi
    rw [hwf _ hmem]
    exact (colIndex_getD hidx).1
  simp only [normalize_categorical]
  set f1 : Value → Value := fun v => .str (pyStrip (pyStr v)) with hf1
  set f2 : Value → Value := fun v => .str (pyTitle (pyStrip (pyStr v))) with hf2
  set f3 : Value → Value := fun v =>
    match v with
    | .str s => .str (countryAlias s)
    | v => v with hf3
  have h1head : (mapCol t "description" f1).header = t.header := mapCol_header ..
  have h1len : (mapCol t "description" f1).rows.length = t.rows.length :=
    mapCol_rows_length ..
  have h1row : ((mapCol t "description" f1).rows.getD i []).length =
      (t.rows.getD i []).length := mapCol_row_length hi
  have hv1 : valAt (mapCol t "description" f1) "country" i = Value.missing := by
    rw [valAt_mapCol_other (by decide) hi]
    exact hmiss
  have hv2 : valAt (mapCol (mapCol t "description" f1) "country" f2) "country" i =
      Value.str "Nan" := by
    rw [valAt_mapCol_self (by rw [h1head]; exact hidx) (by rw [h1len]; exact hi)
      (by rw [h1row]; exact hjlen), hv1]
    rw [hf2]
    decide
  have h2head : (mapCol (mapCol t "description" f1) "country" f2).header = t.header := by
    rw [mapCol_header, h1head]
  have h2len : (mapCol (mapCol t "description" f1) "country" f2).rows.length =
      t.rows.length := by
    rw [mapCol_rows_length, h1len]
  have h2row : ((mapCol (mapCol t "description" f1) "country" f2).rows.getD i []).length =
      (t.rows.getD i []).length := by
    rw [mapCol_row_length (by rw [h1len]; exact hi), h1row]
  have hv3 := valAt_mapCol_self (f := f3) (i := i) (j := j)
    (by rw [h2head]; exact hidx) (by rw [h2len]; exact hi)
    (by rw [h2row]; exact hjlen)
  rw [hv2] at hv3
  exact hv3

/-- Concrete input for the C10 witness: one row with a missing country. -/
def tableC10 : Table := ⟨["country"], [[Value.missing]]⟩

theorem c10_missing_country_becomes_nan_witness :
    (∀ r ∈ tableC10.rows, r.length = tableC10.header.length) ∧
    rowValIn (normalize_categorical tableC10).header "country"
      ((normalize_categorical tableC10).rows.getD 0 []) = Value.str "Nan" :=
  ⟨by decide,
    c10_missing_country_becomes_nan.1 tableC10 0 (by decide) (by decide)
      (by decide) (by decide)⟩

/- ### Claim C6 (corrected) -/

/-- **C6, counterexample.** A `customer_id` value that fails to parse as a
number makes `handle_missing_values` — and hence the whole pipeline —
raise (`none`) instead of coercing the value to missing, contradicting
the claim that no pipeline stage raises on a malformed value. -/
theorem c6_counterexample_customer_id_raises :
    handle_missing_values ⟨["customer_id"], [[Value.str "abc"]]⟩ = none ∧
    pipelineStages ⟨["customer_id"], [[Value.str "abc"]]⟩ false = none := by
  constructor
  · decide
  · decide

/-- **C6, amended.** For the columns handled by the Type Coercer
(`invoice_date`, `quantity`, `unit_price`), a value that fails to parse
becomes missing rather than raising and the row survives
(`convert_dtypes` is total and preserves the shape of the table); but
`customer_id` is converted with `astype("float64")`, which raises on a
non-numeric string instead of coercing it to missing. -/
theorem c6_coercion_amended :
    (∀ t : Table, (convert_dtypes t).rows.length = t.rows.length) ∧
    (∀ t : Table, (convert_dtypes t).header = t.header) ∧
    (∀ s : String, parseRat s = none → coerceNum (.str s) = .missing) ∧
    (∀ s : String, parseDate s = none → coerceDate (.str s) = .missing) ∧
    (∀ s : String, parseRat s = none → astypeFloat (.str s) = none) := by
  refine ⟨?_, fun t => convert_header t, ?_, ?_, ?_⟩
  · intro t
    unfold convert_dtypes
    rw [mapCol_rows_length, mapCol_rows_length, mapCol_rows_length]
  · intro s h
    simp [coerceNum, h]
  · intro s h
    simp [coerceDate, h]
  · intro s h
    simp [astypeFloat, h]

theorem c6_coercion_amended_witness :
    parseRat "abc" = none ∧ coerceNum (.str "abc") = .missing ∧
    parseDate "abc" = none ∧ coerceDate (.str "abc") = .missing ∧
    astypeFloat (.str "abc") = none :=
  ⟨by decide, c6_coercion_amended.2.2.1 "abc" (by decide), by decide,
    c6_coercion_amended.2.2.2.1 "abc" (by decide),
    c6_coercion_amended.2.2.2.2 "abc" (by decide)⟩

/- ### Claim C5 (corrected) -/

/-- Concrete input for the C5 counterexample: its single row lacks
`invoice_no`/`invoice_date`, so the Validity Filter leaves zero rows. -/
def tableC5 : Table :=
  ⟨["invoice_no", "invoice_date", "quantity", "unit_price", "description"],
    [[.missing, .missing, .missing, .missing, .missing]]⟩

/-- The cleaned output of the pipeline on `tableC5`: all columns, no
rows. -/
def outC5 : Table :=
  ⟨["invoice_no", "invoice_date", "quantity", "unit_price", "description",
      "total_value", "year", "month", "is_outlier_quantity", "is_outlier_unit_price"],
    []⟩

/-- **C5, counterexample.** A run can reach `create_summary_tables` with
the required columns present but zero rows; `revenue_by_month.csv` and
`top10_products_by_sales.csv` are then written with empty content,
contradicting "for no run is an empty side artifact written". -/
theorem c5_counterexample_empty_summary_written :
    pipelineStages tableC5 false = some outC5 ∧
    revenueWritten outC5 = true ∧ revenueRows outC5 = [] ∧
    topProductsWritten outC5 = true ∧ topProducts outC5 = [] := by
  refine ⟨by decide, by decide, by decide, by decide, by decide⟩

/-- **C5, amended.** The duplicate log and the outlier log are written
exactly when non-empty; but the summary CSVs are not so guarded:
`revenue_by_month` and `top10_products_by_sales` are written whenever
their required columns exist (even with zero data rows), and
`overall_metrics` is written on every run, its content always being
exactly the two metric rows. -/
theorem c5_artifact_write_conditions_amended :
    (∀ rows : List (List Value), dupLogWritten rows = true ↔ dupLogRows rows ≠ []) ∧
    (∀ t : Table, outlierLogWritten t = true ↔ outlierLogRows t ≠ []) ∧
    (∀ t : Table, revenueWritten t = (hasCol t "total_value" && hasCol t "invoice_date")) ∧
    (∀ t : Table,
        topProductsWritten t = (hasCol t "total_value" && hasCol t "description")) ∧
    (∀ t : Table, metricsWritten t = true ∧ (metricsRows t).length = 2) := by
  have isEmpty_false_iff : ∀ {γ : Type} (l : List γ), l.isEmpty = false ↔ l ≠ [] := by
    intro γ l
    cases l <;> simp
  refine ⟨?_, ?_, fun _ => rfl, fun _ => rfl, fun _ => ⟨rfl, rfl⟩⟩
  · intro rows
    unfold dupLogWritten
    rw [Bool.not_eq_eq_eq_not, Bool.not_true, isEmpty_false_iff]
  · intro t
    unfold outlierLogWritten
    constructor
    · intro h
      have h2 := (Bool.and_eq_true _ _).mp h
      rw [Bool.not_eq_eq_eq_not, Bool.not_true, isEmpty_false_iff] at h2
      exact h2.2
    · intro h
      refine (Bool.and_eq_true _ _).mpr ⟨?_, ?_⟩
      · by_cases hc : outlierCols (attachFlags t) = []
        · exfalso
          refine h ?_
          unfold outlierLogRows
          refine List.filter_eq_nil_iff.mpr fun r _ => ?_
          rw [hc]
          simp [anyFlagged]
        · exact decide_eq_true hc
      · rw [Bool.not_eq_eq_eq_not, Bool.not_true, isEmpty_false_iff]
        exact h

/- ### Claim C2 -/

/-- **C2.** For an eligible numeric column, Q1 and Q3 are the
linear-interpolation quartiles of the non-missing values only, the bounds
are `[Q1 - 1.5·IQR, Q3 + 1.5·IQR]`, a non-missing value is flagged exactly
when it lies strictly outside the bounds and a missing value is never
flagged; on `[1,2,2,3,3,3,4,4,100]` this gives Q1 = 2, Q3 = 4, bounds
`[-1, 7]`, and only `100` is flagged. -/
theorem c2_iqr_outlier_flags :
    (∀ col : List (Option ℚ), (flagColumn col).length = col.length) ∧
    (∀ col : List (Option ℚ), col.filterMap id = [] →
        flagColumn col = col.map fun _ => false) ∧
    (∀ (col : List (Option ℚ)) (i : ℕ), col.filterMap id ≠ [] → i < col.length →
        (flagColumn col).getD i false =
          match col.getD i none with
          | some q =>
            decide (q < quantileQuarters (col.filterMap id) 1 -
              3 / 2 * (quantileQuarters (col.filterMap id) 3 -
                quantileQuarters (col.filterMap id) 1)) ||
            decide (quantileQuarters (col.filterMap id) 3 +
              3 / 2 * (quantileQuarters (col.filterMap id) 3 -
                quantileQuarters (col.filterMap id) 1) < q)
          | none => false) ∧
    (quantileQuarters [1, 2, 2, 3, 3, 3, 4, 4, 100] 1 = 2 ∧
      quantileQuarters [1, 2, 2, 3, 3, 3, 4, 4, 100] 3 = 4) ∧
    (detect_outliers_iqr [1, 2, 2, 3, 3, 3, 4, 4, 100] = (-1, 7)) ∧
    (flagColumn
        [some 1, some 2, some 2, some 3, some 3, some 3, some 4, some 4, some 100] =
      [false, false, false, false, false, false, false, false, true]) := by
  have hq1 : quantileQuarters [1, 2, 2, 3, 3, 3, 4, 4, 100] 1 = 2 := by decide
  have hq3 : quantileQuarters [1, 2, 2, 3, 3, 3, 4, 4, 100] 3 = 4 := by decide
  have hdet : detect_outliers_iqr [1, 2, 2, 3, 3, 3, 4, 4, 100] = (-1, 7) := by
    unfold detect_outliers_iqr
    rw [hq1, hq3]
    norm_num
  refine ⟨?_, ?_, ?_, ⟨hq1, hq3⟩, hdet, ?_⟩
  · intro col
    unfold flagColumn
    split <;> rw [List.length_map]
  · intro col h
    unfold flagColumn
    rw [if_pos (by rw [h]; rfl)]
  · intro col i hne hi
    unfold flagColumn
    rw [if_neg (by simpa using hne)]
    rw [getD_map_lt _ hi false none]
    cases hv : col.getD i none with
    | none => rfl
    | some q =>
      simp only [flagWith, detect_outliers_iqr]
  · unfold flagColumn
    rw [if_neg (by decide)]
    rw [show List.filterMap id
        [some (1:ℚ), some 2, some 2, some 3, some 3, some 3, some 4, some 4, some 100] =
        [1, 2, 2, 3, 3, 3, 4, 4, 100] from rfl]
    rw [hdet]
    decide

theorem c2_iqr_outlier_flags_witness :
    ([some (1 : ℚ), none].filterMap id ≠ [] ∧ 1 < ([some (1 : ℚ), none]).length) ∧
    (flagColumn [some (1 : ℚ), none]).getD 1 false = false :=
  ⟨⟨by decide, by decide⟩,
    c2_iqr_outlier_flags.2.2.1 [some (1 : ℚ), none] 1 (by decide) (by decide)⟩

/- ### Stable-sort lemmas -/

theorem insertBefore_perm (le : α → α → Bool) (x : α) (l : List α) :
    (insertBefore le x l).Perm (x :: l) := by
  induction l with
  | nil => exact List.Perm.refl _
  | cons y ys ih =>
    unfold insertBefore
    by_cases h : le x y = true
    · rw [if_pos h]
    · rw [if_neg h]
      exact (ih.cons y).trans (List.Perm.swap x y ys)

theorem insSort_perm (le : α → α → Bool) (l : List α) : (insSort le l).Perm l := by
  induction l with
  | nil => exact List.Perm.refl _
  | cons a l ih =>
    unfold insSort
    exact (insertBefore_perm le a (insSort le l)).trans (ih.cons a)

theorem insertBefore_pairwise {le : α → α → Bool}
    (htot : ∀ a b, le a b = true ∨ le b a = true)
    (htrans : ∀ a b c, le a b = true → le b c = true → le a c = true)
    (x : α) {l : List α} (h : l.Pairwise fun a b => le a b = true) :
    (insertBefore le x l).Pairwise fun a b => le a b = true := by
  induction l with
  | nil => simp [insertBefore]
  | cons y ys ih =>
    rw [List.pairwise_cons] at h
    unfold insertBefore
    by_cases hxy : le x y = true
    · rw [if_pos hxy]
      refine List.Pairwise.cons ?_ (List.pairwise_cons.mpr h)
      intro z hz
      rcases List.mem_cons.mp hz with rfl | hz
      · exact hxy
      · exact htrans x y z hxy (h.1 z hz)
    · rw [if_neg hxy]
      refine List.Pairwise.cons ?_ (ih h.2)
      intro z hz
      rcases List.mem_cons.mp ((insertBefore_perm le x ys).mem_iff.mp hz) with rfl | hz'
      · rcases htot z y with h' | h'
        · exact absurd h' hxy
        · exact h'
      · exact h.1 z hz'

theorem insSort_pairwise {le : α → α → Bool}
    (htot : ∀ a b, le a b = true ∨ le b a = true)
    (htrans : ∀ a b c, le a b = true → le b c = true → le a c = true)
    (l : List α) : (insSort le l).Pairwise fun a b => le a b = true := by
  induction l with
  | nil => simp [insSort]
  | cons a l ih =>
    unfold insSort
    exact insertBefore_pairwise htot htrans a ih

theorem insSort_rat_eq_of_perm {l₁ l₂ : List ℚ} (h : l₁.Perm l₂) :
    insSort (fun a b : ℚ => decide (a ≤ b)) l₁ =
      insSort (fun a b : ℚ => decide (a ≤ b)) l₂ := by
  have htot : ∀ a b : ℚ, decide (a ≤ b) = true ∨ decide (b ≤ a) = true := by
    intro a b
    rcases le_total a b with h' | h'
    · exact Or.inl (decide_eq_true h')
    · exact Or.inr (decide_eq_true h')
  have htrans : ∀ a b c : ℚ,
      decide (a ≤ b) = true → decide (b ≤ c) = true → decide (a ≤ c) = true := by
    intro a b c h1 h2
    exact decide_eq_true (le_trans (of_decide_eq_true h1) (of_decide_eq_true h2))
  have hperm : (insSort (fun a b : ℚ => decide (a ≤ b)) l₁).Perm
      (insSort (fun a b : ℚ => decide (a ≤ b)) l₂) :=
    ((insSort_perm _ l₁).trans h).trans (insSort_perm _ l₂).symm
  refine List.eq_of_perm_of_sorted (r := (· ≤ · : ℚ → ℚ → Prop)) hperm ?_ ?_
  · exact List.Pairwise.imp (fun h' => of_decide_eq_true h')
      (insSort_pairwise htot htrans l₁)
  · exact List.Pairwise.imp (fun h' => of_decide_eq_true h')
      (insSort_pairwise htot htrans l₂)

theorem quantileQuarters_perm {xs ys : List ℚ} (h : xs.Perm ys) (k : ℕ) :
    quantileQuarters xs k = quantileQuarters ys k := by
  unfold quantileQuarters
  rw [insSort_rat_eq_of_perm h]

theorem detect_outliers_iqr_perm {xs ys : List ℚ} (h : xs.Perm ys) :
    detect_outliers_iqr xs = detect_outliers_iqr ys := by
  unfold detect_outliers_iqr
  rw [quantileQuarters_perm h 1, quantileQuarters_perm h 3]

/- ### Claim C8 -/

theorem isEmpty_false_of_ne_nil {l : List α} (h : l ≠ []) : l.isEmpty = false := by
  cases l with
  | nil => exact absurd rfl h
  | cons a l => rfl

/-- The flag one cell of a column receives: `False` when the whole column
is missing, otherwise the IQR-bounds test of `flagWith`. -/
def colFlag (col : List (Option ℚ)) (v : Option ℚ) : Bool :=
  if (col.filterMap id).isEmpty then false
  else flagWith (detect_outliers_iqr (col.filterMap id)) v

/-- The flagged table over (quantity, unit_price) rows: each row paired
with its two outlier flags, each computed from its own column. -/
def rowOutlierFlags (tbl : List (Option ℚ × Option ℚ)) :
    List ((Option ℚ × Option ℚ) × Bool × Bool) :=
  tbl.map fun r => (r, colFlag (tbl.map Prod.fst) r.1, colFlag (tbl.map Prod.snd) r.2)

theorem flagColumn_eq_map (col : List (Option ℚ)) :
    flagColumn col = col.map (colFlag col) := by
  unfold flagColumn colFlag
  by_cases h : (col.filterMap id).isEmpty = true
  · simp [h]
  · simp [h]

theorem colFlag_congr {col₁ col₂ : List (Option ℚ)} (h : col₁.Perm col₂) :
    colFlag col₁ = colFlag col₂ := by
  funext v
  unfold colFlag
  have hperm : (col₁.filterMap id).Perm (col₂.filterMap id) := h.filterMap id
  by_cases h1 : col₁.filterMap id = []
  · have h2 : col₂.filterMap id = [] := by
      rw [h1] at hperm
      exact hperm.symm.eq_nil
    rw [h1, h2]
  · have h2 : col₂.filterMap id ≠ [] := fun hc => h1 (by rw [hc] at hperm; exact hperm.eq_nil)
    simp [isEmpty_false_of_ne_nil h1, isEmpty_false_of_ne_nil h2,
      detect_outliers_iqr_perm hperm]

/-- **C8.** Outlier flagging is deterministic and order-independent:
permuting the rows permutes the list of (cell value, flag) pairs of a
column, and permutes the list of (row, flags) triples of the
(quantity, unit_price) table, i.e. the multiset of flagged values is
unchanged. -/
theorem c8_outlier_flagging_order_independent :
    (∀ col : List (Option ℚ), flagColumn col = col.map (colFlag col)) ∧
    (∀ col₁ col₂ : List (Option ℚ), col₁.Perm col₂ →
        (col₁.map fun v => (v, colFlag col₁ v)).Perm
          (col₂.map fun v => (v, colFlag col₂ v))) ∧
    (∀ tbl₁ tbl₂ : List (Option ℚ × Option ℚ), tbl₁.Perm tbl₂ →
        (rowOutlierFlags tbl₁).Perm (rowOutlierFlags tbl₂)) := by
  refine ⟨flagColumn_eq_map, ?_, ?_⟩
  · intro col₁ col₂ h
    rw [colFlag_congr h]
    exact h.map _
  · intro tbl₁ tbl₂ h
    unfold rowOutlierFlags
    rw [colFlag_congr (h.map Prod.fst), colFlag_congr (h.map Prod.snd)]
    exact h.map _

theorem c8_outlier_flagging_order_independent_witness :
    ([some (1 : ℚ), none] : List (Option ℚ)).Perm [none, some (1 : ℚ)] ∧
    ([some (1 : ℚ), none].map fun v => (v, colFlag [some (1 : ℚ), none] v)).Perm
      ([none, some (1 : ℚ)].map fun v => (v, colFlag [none, some (1 : ℚ)] v)) :=
  ⟨by decide,
    c8_outlier_flagging_order_independent.2.1 [some (1 : ℚ), none]
      [none, some (1 : ℚ)] (by decide)⟩

/- ### Claim C4 (corrected) -/

theorem byValDesc_total (a b : Value × ℚ) :
    byValDesc a b = true ∨ byValDesc b a = true := by
  rcases le_total b.2 a.2 with h | h
  · exact Or.inl (decide_eq_true h)
  · exact Or.inr (decide_eq_true h)

theorem byValDesc_trans (a b c : Value × ℚ) (h1 : byValDesc a b = true)
    (h2 : byValDesc b c = true) : byValDesc a c = true :=
  decide_eq_true (le_trans (of_decide_eq_true h2) (of_decide_eq_true h1))

/-- Modelled from the claim's words ("the per-description sums of
`total_value` … all groups if fewer than 10 exist, ties broken by
original grouping order"): group every row by its description value —
a missing description included as a group key — sum `total_value` per
group in grouping order (keys ascending). -/
def productGroupsClaimed (t : Table) : List (Value × ℚ) :=
  let pairs := t.rows.map fun r =>
    (rowValIn t.header "description" r, rowValIn t.header "total_value" r)
  let keys := insSort valLe (distinctVals (pairs.map Prod.fst))
  keys.map fun k => (k, sumNums ((pairs.filter fun p => p.1 == k).map Prod.snd))

/-- Modelled from the claim's words: the claimed `top_products` table —
the claimed groups sorted descending by total value with ties kept in
grouping order (a stable sort), truncated to 10 rows. -/
def topProductsClaimed (t : Table) : List (Value × ℚ) :=
  if hasCol t "total_value" && hasCol t "description" then
    (insSort byValDesc (productGroupsClaimed t)).take 10
  else []

/-- Concrete input for the C4 counterexample: one row whose description
is missing. -/
def tableC4cex : Table :=
  ⟨["description", "total_value"], [[Value.missing, Value.missing]]⟩

/-- **C4, counterexample.** On a table with a missing description,
`groupby("description")` (default `dropna=True`) forms no group for the
missing key, so the code's `top_products` is empty, while the claimed
"per-description sums … all groups if fewer than 10 exist" table keeps
that group: the claim as stated fails at `tableC4cex`. -/
theorem c4_counterexample_missing_description_group :
    topProducts tableC4cex = [] ∧
    topProductsClaimed tableC4cex = [(Value.missing, 0)] ∧
    topProducts tableC4cex ≠ topProductsClaimed tableC4cex := by
  refine ⟨by decide, by decide, by decide⟩

/-- **C4, amended.** `top_products` is the per-description sums of
`total_value` over the rows whose description is non-missing (`groupby`
drops missing keys, so no group key is ever missing), sorted
non-increasingly in `total_value`, with at most 10 rows — all the groups
when at most 10 exist.  No order among tied sums is claimed:
`sort_values`' default quicksort guarantees sortedness and permutation
only, not stability, so ties need not follow grouping order, and none of
the conjuncts below depends on the model's tie order. -/
theorem c4_top_products_amended :
    (∀ t : Table, (topProducts t).length ≤ 10) ∧
    (∀ t : Table, (topProducts t).Pairwise fun a b => b.2 ≤ a.2) ∧
    (∀ t : Table, hasCol t "total_value" = true → hasCol t "description" = true →
        (productGroups t).length ≤ 10 → (topProducts t).Perm (productGroups t)) ∧
    (∀ t : Table, ∀ g ∈ productGroups t, g.1 ≠ Value.missing) := by
  refine ⟨?_, ?_, ?_, ?_⟩
  · intro t
    unfold topProducts
    split
    · rw [List.length_take]
      exact min_le_left ..
    · simp
  · intro t
    unfold topProducts
    split
    · refine List.Pairwise.sublist (List.take_sublist _ _) ?_
      exact (insSort_pairwise byValDesc_total byValDesc_trans
        (productGroups t)).imp fun h => of_decide_eq_true h
    · simp
  · intro t h1 h2 h3
    unfold topProducts
    rw [if_pos (by rw [h1, h2]; rfl)]
    rw [List.take_of_length_le (by rw [(insSort_perm _ _).length_eq]; exact h3)]
    exact insSort_perm _ _
  · intro t g hg
    simp only [productGroups] at hg
    obtain ⟨k, hk, rfl⟩ := List.mem_map.mp hg
    have hk2 := (insSort_perm valLe _).mem_iff.mp hk
    obtain ⟨p, hp, rfl⟩ := List.mem_map.mp (mem_dropDuplicates.mp hk2)
    have hnm := (List.mem_filter.mp hp).2
    simp only [Bool.not_eq_eq_eq_not, Bool.not_true] at hnm
    exact (isMissing_false_iff _).mp hnm

/-- Concrete input for the C4 witness: the required columns with no
rows. -/
def tableC4 : Table := ⟨["description", "total_value"], []⟩

theorem c4_top_products_amended_witness :
    (hasCol tableC4 "total_value" = true ∧ hasCol tableC4 "description" = true ∧
      (productGroups tableC4).length ≤ 10) ∧
    (topProducts tableC4).Perm (productGroups tableC4) :=
  ⟨⟨by decide, by decide, by decide⟩,
    c4_top_products_amended.2.2.1 tableC4 (by decide) (by decide) (by decide)⟩
